import Mathlib

/-!
A shallow embedding of the startup-profiler pipeline: URL normalization and
the profile store (`src/models/database.py`), the insight parser
(`src/tools/gemini_analyzer.py`), the news fetcher (`src/tools/news_fetcher.py`),
the web scraper (`src/tools/web_scraper.py`), and the orchestrator
(`src/agents/startup_profiler_agent.py`).

Strings are modelled as `List Char` internally (`String` in Lean 4.14 wraps
`List Char`), and the relevant parts of the Python standard library that the
source leans on (`str.lower`, `str.replace`, `str.rstrip`, `str.strip`,
`str.find` / `str.rfind`, slicing, `urllib.parse.urlparse`, `urllib.parse.urljoin`,
`json.loads`) are embedded alongside, restricted to the ASCII behaviour the
source exercises.
-/

namespace Profiler

/-! ### Python `str.lower` (ASCII case mapping, per character) -/

theorem val_add_32_toNat (c : Char) (h : c.toNat ≤ 90) :
    (c.val + 32).toNat = c.toNat + 32 := by
  have hlt : c.val.toNat + (32 : UInt32).toNat < UInt32.size := by
    simp only [Char.toNat] at h
    show c.val.toNat + 32 < 4294967296
    omega
  rw [UInt32.toNat_add, Nat.mod_eq_of_lt hlt]
  rfl

/-- ASCII lower-casing of one character, as `str.lower` does it per character. -/
def lowerChar (c : Char) : Char :=
  if h : 65 ≤ c.toNat ∧ c.toNat ≤ 90 then
    ⟨c.val + 32, by
      left
      show (c.val + 32).toNat < 55296
      rw [val_add_32_toNat c h.2]
      have := h.2
      omega⟩
  else c

theorem lowerChar_eq_self (c : Char) (h : ¬(65 ≤ c.toNat ∧ c.toNat ≤ 90)) :
    lowerChar c = c := dif_neg h

theorem lowerChar_toNat_of_upper (c : Char) (h : 65 ≤ c.toNat ∧ c.toNat ≤ 90) :
    (lowerChar c).toNat = c.toNat + 32 := by
  unfold lowerChar
  rw [dif_pos h]
  exact val_add_32_toNat c h.2

theorem lowerChar_lowerChar (c : Char) : lowerChar (lowerChar c) = lowerChar c := by
  by_cases h : 65 ≤ c.toNat ∧ c.toNat ≤ 90
  · apply lowerChar_eq_self
    rw [lowerChar_toNat_of_upper c h]
    omega
  · rw [lowerChar_eq_self c h, lowerChar_eq_self c h]

/-- `str.lower` on a whole string (character list). -/
def pyLower (l : List Char) : List Char := l.map lowerChar

theorem pyLower_idem (l : List Char) : pyLower (pyLower l) = pyLower l := by
  simp only [pyLower, List.map_map]
  apply List.map_congr_left
  intro c _
  exact lowerChar_lowerChar c

/-! ### `netloc.replace("www.", "")` and trailing-slash stripping -/

/-- Python `s.replace("www.", "")`: delete every non-overlapping occurrence of
`"www."`, scanning left to right. -/
def removeWww : List Char → List Char
  | 'w' :: 'w' :: 'w' :: '.' :: rest => removeWww rest
  | c :: rest => c :: removeWww rest
  | [] => []

/-- Whether `"www."` occurs anywhere as a contiguous substring. -/
def hasWww : List Char → Bool
  | 'w' :: 'w' :: 'w' :: '.' :: _ => true
  | _ :: rest => hasWww rest
  | [] => false

theorem removeWww_eq_self_of_not_hasWww (l : List Char) (h : hasWww l = false) :
    removeWww l = l := by
  induction l using removeWww.induct with
  | case1 rest ih =>
    rw [hasWww.eq_1] at h
    exact absurd h (by simp)
  | case2 c rest hne ih =>
    rw [hasWww.eq_2 c rest hne] at h
    rw [removeWww.eq_2 c rest hne, ih h]
  | case3 => rfl

theorem mem_removeWww (l : List Char) (c : Char) (h : c ∈ removeWww l) : c ∈ l := by
  induction l using removeWww.induct with
  | case1 rest ih =>
    rw [removeWww.eq_1] at h
    exact List.mem_cons_of_mem _ (List.mem_cons_of_mem _
      (List.mem_cons_of_mem _ (List.mem_cons_of_mem _ (ih h))))
  | case2 d rest hne ih =>
    rw [removeWww.eq_2 d rest hne] at h
    rcases List.mem_cons.mp h with h | h
    · exact h ▸ List.mem_cons_self _ _
    · exact List.mem_cons_of_mem _ (ih h)
  | case3 => exact absurd h (by simp [removeWww])

/-- Python `s.rstrip("/")`: drop every trailing `'/'`. -/
def rstripSlash (l : List Char) : List Char :=
  (l.reverse.dropWhile (fun c => c = '/')).reverse

/-! ### `urllib.parse.urlparse`, restricted to scheme / netloc / path

`urlsplit` finds the first `':'`; if the prefix before it is a nonempty valid
scheme it is split off (lower-cased). If what remains starts with `"//"`, the
netloc runs up to the next `'/'`, `'?'` or `'#'`. The fragment is everything
after the first `'#'`, the query everything after the first `'?'` of what is
left, and `urlparse` additionally splits `";params"` off the last path segment.
Only `scheme`, `netloc` and `path` are kept here, which is all the source reads.
-/

/-- Characters allowed in a URL scheme after the first (letters, digits, `+-.`). -/
def schemeChar (c : Char) : Bool := c.isAlphanum || c == '+' || c == '-' || c == '.'

/-- Python's scheme test: first character an ASCII letter, the rest scheme chars. -/
def validScheme : List Char → Bool
  | [] => false
  | c :: cs => c.isAlpha && cs.all schemeChar

/-- A netloc ends at the first `'/'`, `'?'` or `'#'`. -/
def netlocChar (c : Char) : Bool := c ≠ '/' && c ≠ '?' && c ≠ '#'

/-- Split `";params"` off the last `'/'`-separated segment, as
`urllib.parse._splitparams` does: find the first `';'` at or after the last
`'/'` (from the start when there is no `'/'`) and cut there. -/
def splitParams (p : List Char) : List Char :=
  let segRev := p.reverse.takeWhile (fun c => c ≠ '/')
  let preRev := p.reverse.dropWhile (fun c => c ≠ '/')
  let seg := segRev.reverse
  if seg.any (fun c => c = ';') then
    preRev.reverse ++ seg.takeWhile (fun c => c ≠ ';')
  else p

/-- The `(scheme, netloc, path)` triple of `urllib.parse.urlparse`. -/
structure UrlParts where
  scheme : List Char
  netloc : List Char
  path : List Char
deriving Repr, DecidableEq

/-- Scheme extraction of `urlsplit`: the prefix before the first `':'`, when
nonempty and valid, is the (lower-cased) scheme; otherwise no scheme. Returns
the scheme and the remaining input. -/
def splitScheme (url : List Char) : List Char × List Char :=
  let pre := url.takeWhile (fun c => c ≠ ':')
  let post := url.dropWhile (fun c => c ≠ ':')
  if post ≠ [] ∧ pre ≠ [] ∧ validScheme pre = true then (pre.map lowerChar, post.tail)
  else ([], url)

/-- Netloc extraction of `urlsplit`: after a leading `"//"`, up to the next
`'/'`, `'?'` or `'#'`. Returns the netloc and the remaining input. -/
def splitNetloc (rest : List Char) : List Char × List Char :=
  if rest.take 2 = ['/', '/'] then
    ((rest.drop 2).takeWhile netlocChar, (rest.drop 2).dropWhile netlocChar)
  else ([], rest)

/-- Path of `urlparse` from the post-netloc remainder: cut the fragment (first
`'#'`), then the query (first `'?'`), then the params (`_splitparams`). -/
def pathOf (rest2 : List Char) : List Char :=
  splitParams ((rest2.takeWhile (fun c => c ≠ '#')).takeWhile (fun c => c ≠ '?'))

/-- `urllib.parse.urlparse`, keeping scheme, netloc and path. -/
def pyUrlparse (url : List Char) : UrlParts :=
  let (scheme, rest) := splitScheme url
  let (netloc, rest2) := splitNetloc rest
  ⟨scheme, netloc, pathOf rest2⟩

/-! ### `SupabaseManager._normalize_url` (`src/models/database.py`)

```python
parsed = urlparse(url.lower())
netloc = parsed.netloc.replace('www.', '')
scheme = 'https' if parsed.scheme in ['http', 'https'] else parsed.scheme
return f"{scheme}://{netloc}{parsed.path}".rstrip('/')
```
-/

def normalizeList (url : List Char) : List Char :=
  let parsed := pyUrlparse (pyLower url)
  let netloc := removeWww parsed.netloc
  let scheme :=
    if parsed.scheme = ['h', 't', 't', 'p'] ∨ parsed.scheme = ['h', 't', 't', 'p', 's'] then
      ['h', 't', 't', 'p', 's']
    else parsed.scheme
  rstripSlash (scheme ++ ':' :: '/' :: '/' :: (netloc ++ parsed.path))

/-- `SupabaseManager._normalize_url` on Lean strings. -/
def normalize_url (url : String) : String :=
  ⟨normalizeList url.data⟩

/-! ### The profile store (`SupabaseManager`, `src/models/database.py`)

The backing table `company_profiles` is a sequence of rows with a unique
`website_url` column. `check_company_exists` selects by the normalized URL and
tests for a nonempty result (any backend error is swallowed and reported as
`False`); `save_company_profile` builds the row — with `website_url` set to the
normalized form — and inserts it; `get_company_profile` selects the row by the
normalized URL (errors give `None`).
-/

/-- One article record as passed around between news fetcher, analyzer and store. -/
structure NewsArticle where
  title : String
  snippet : String
  source : String
  date : String
  source_name : String
deriving Repr, DecidableEq

/-- A row of the `company_profiles` table. -/
structure CompanyRecord where
  website_url : String
  company_name : String
  page_title : String
  meta_description : String
  company_summary : String
  industry_category : String
  target_audience : String
  key_problems_solved : List String
  potential_competitors : List String
  news_summary : String
  h1_tags : List String
  h2_tags : List String
  outbound_links : List String
  latest_news : List NewsArticle
  scraped_content : String
deriving Repr, DecidableEq

/-- The `profile_data` dictionary assembled by the orchestrator before saving. -/
structure ProfileData where
  website_url : String
  company_name : String
  page_title : String
  meta_description : String
  company_summary : String
  industry_category : String
  target_audience : String
  key_problems_solved : List String
  potential_competitors : List String
  news_summary : String
  h1_tags : List String
  h2_tags : List String
  outbound_links : List String
  latest_news : List NewsArticle
  scraped_content : String
deriving Repr, DecidableEq

/-- The `company_profiles` table contents. -/
abbrev Table := List CompanyRecord

/-- `SupabaseManager.check_company_exists`: select rows whose `website_url`
equals the normalized URL and test for nonemptiness; if the backend call fails
(`dbOk = false`) the exception is swallowed and `False` returned. -/
def check_company_exists (dbOk : Bool) (table : Table) (website_url : String) : Bool :=
  if dbOk then
    table.any (fun r => r.website_url = normalize_url website_url)
  else
    false

/-- The row `save_company_profile` builds from `profile_data` (timestamps elided). -/
def recordOfProfileData (d : ProfileData) : CompanyRecord :=
  { website_url := normalize_url d.website_url
    company_name := d.company_name
    page_title := d.page_title
    meta_description := d.meta_description
    company_summary := d.company_summary
    industry_category := d.industry_category
    target_audience := d.target_audience
    key_problems_solved := d.key_problems_solved
    potential_competitors := d.potential_competitors
    news_summary := d.news_summary
    h1_tags := d.h1_tags
    h2_tags := d.h2_tags
    outbound_links := d.outbound_links
    latest_news := d.latest_news
    scraped_content := d.scraped_content }

/-- `SupabaseManager.save_company_profile`: insert the prepared row. The table's
unique constraint on `website_url` rejects a duplicate key, and a failing
backend (`dbOk = false`) also raises; both propagate to the caller (`raise`).
On success the new table and the saved row are returned. -/
def save_company_profile (dbOk : Bool) (table : Table) (d : ProfileData) :
    Except String (Table × CompanyRecord) :=
  if ¬dbOk then
    .error ("Error saving company profile: backend unavailable")
  else if table.any (fun r => r.website_url = (recordOfProfileData d).website_url) then
    .error ("Error saving company profile: duplicate key value violates unique constraint")
  else
    .ok (table ++ [recordOfProfileData d], recordOfProfileData d)

/-- `SupabaseManager.get_company_profile`: select the row by normalized URL;
`None` when absent or when the backend call fails (swallowed). -/
def get_company_profile (dbOk : Bool) (table : Table) (website_url : String) :
    Option CompanyRecord :=
  if dbOk then
    table.find? (fun r => r.website_url = normalize_url website_url)
  else
    none

/-! ### `json.loads`: a JSON value model and a strict RFC 8259 reader

`GeminiAnalyzer._parse_response` decides between the model output and the
placeholder by whether `json.loads` succeeds, so the embedding carries a JSON
reader: values are null / booleans / numbers (kept as their lexeme) / strings
(with the standard escapes) / arrays / objects; input is accepted only when a
single value is followed by nothing but whitespace, as `json.loads` does.
-/

inductive Json where
  | null : Json
  | bool (b : Bool) : Json
  | num (lit : String) : Json
  | str (s : String) : Json
  | arr (elems : List Json) : Json
  | obj (members : List (String × Json)) : Json
deriving Repr

/-- JSON whitespace (`space`, `tab`, `newline`, `carriage return`). -/
def jsonWs (c : Char) : Bool := c == ' ' || c == '\t' || c == '\n' || c == '\r'

def skipWs (l : List Char) : List Char := l.dropWhile jsonWs

def isDigit (c : Char) : Bool := '0' ≤ c && c ≤ '9'

def hexDigit (c : Char) : Option Nat :=
  if '0' ≤ c ∧ c ≤ '9' then some (c.toNat - 48)
  else if 'a' ≤ c ∧ c ≤ 'f' then some (c.toNat - 87)
  else if 'A' ≤ c ∧ c ≤ 'F' then some (c.toNat - 55)
  else none

/-- Read the remainder of a JSON string literal (after the opening quote),
returning its unescaped characters and the input after the closing quote. -/
def parseStringRest (l : List Char) : Option (List Char × List Char) :=
  match l with
  | [] => none
  | '"' :: r => some ([], r)
  | '\\' :: 'u' :: h1 :: h2 :: h3 :: h4 :: r =>
    match hexDigit h1, hexDigit h2, hexDigit h3, hexDigit h4 with
    | some a, some b, some c, some d =>
      let n := ((a * 16 + b) * 16 + c) * 16 + d
      (parseStringRest r).map (fun p => (Char.ofNat n :: p.1, p.2))
    | _, _, _, _ => none
  | '\\' :: e :: r =>
    let esc : Option Char :=
      if e = '"' then some '"'
      else if e = '\\' then some '\\'
      else if e = '/' then some '/'
      else if e = 'b' then some (Char.ofNat 8)
      else if e = 'f' then some (Char.ofNat 12)
      else if e = 'n' then some '\n'
      else if e = 'r' then some '\r'
      else if e = 't' then some '\t'
      else none
    match esc with
    | some d => (parseStringRest r).map (fun p => (d :: p.1, p.2))
    | none => none
  | c :: r =>
    if c.toNat < 32 then none
    else (parseStringRest r).map (fun p => (c :: p.1, p.2))

/-- Read a JSON number lexeme (`-? int frac? exp?`, no leading zeros). -/
def parseNum (l : List Char) : Option (List Char × List Char) :=
  let (sign, l1) := match l with
    | '-' :: r => (['-'], r)
    | _ => (([] : List Char), l)
  let intPart := l1.takeWhile isDigit
  let l2 := l1.dropWhile isDigit
  if intPart = [] then none
  else if intPart.head? = some '0' ∧ intPart.length > 1 then none
  else
    let (fracPart, l3) := match l2 with
      | '.' :: r =>
        let ds := r.takeWhile isDigit
        if ds = [] then ((none : Option (List Char)), l2)
        else (some ('.' :: ds), r.dropWhile isDigit)
      | _ => (none, l2)
    match fracPart with
    | none =>
      if l2.head? = some '.' then none
      else
        match expPart l3 with
        | some (es, l4) => some (sign ++ intPart ++ es, l4)
        | none => none
    | some fs =>
      match expPart l3 with
      | some (es, l4) => some (sign ++ intPart ++ fs ++ es, l4)
      | none => none
where
  /-- Read an optional exponent (`[eE] [+-]? digits`); fails only on a
  dangling exponent marker. -/
  expPart (l : List Char) : Option (List Char × List Char) :=
    match l with
    | 'e' :: r => expDigits 'e' r
    | 'E' :: r => expDigits 'E' r
    | _ => some ([], l)
  expDigits (e : Char) (r : List Char) : Option (List Char × List Char) :=
    let (sgn, r1) := match r with
      | '+' :: r' => (['+'], r')
      | '-' :: r' => (['-'], r')
      | _ => (([] : List Char), r)
    let ds := r1.takeWhile isDigit
    if ds = [] then none
    else some (e :: sgn ++ ds, r1.dropWhile isDigit)

mutual

/-- Read one JSON value, fuelled for totality. -/
def parseVal : Nat → List Char → Option (Json × List Char)
  | 0, _ => none
  | fuel + 1, l =>
    match skipWs l with
    | 'n' :: 'u' :: 'l' :: 'l' :: r => some (.null, r)
    | 't' :: 'r' :: 'u' :: 'e' :: r => some (.bool true, r)
    | 'f' :: 'a' :: 'l' :: 's' :: 'e' :: r => some (.bool false, r)
    | '"' :: r => (parseStringRest r).map (fun p => (.str ⟨p.1⟩, p.2))
    | '[' :: r =>
      (match skipWs r with
       | ']' :: r2 => some (.arr [], r2)
       | l2 => (parseElems fuel l2).map (fun p => (.arr p.1, p.2)))
    | '\x7b' :: r =>
      (match skipWs r with
       | '\x7d' :: r2 => some (.obj [], r2)
       | l2 => (parseMembers fuel l2).map (fun p => (.obj p.1, p.2)))
    | l1 =>
      (match l1 with
       | c :: _ =>
         if c = '-' ∨ isDigit c then
           (parseNum l1).map (fun p => (.num ⟨p.1⟩, p.2))
         else none
       | [] => none)

/-- Read the comma-separated elements of a nonempty array, incl. closing `]`. -/
def parseElems : Nat → List Char → Option (List Json × List Char)
  | 0, _ => none
  | fuel + 1, l => do
    let (v, r) ← parseVal fuel l
    match skipWs r with
    | ',' :: r2 => (parseElems fuel r2).map (fun p => (v :: p.1, p.2))
    | ']' :: r2 => some ([v], r2)
    | _ => none

/-- Read the comma-separated members of a nonempty object, incl. closing brace. -/
def parseMembers : Nat → List Char → Option (List (String × Json) × List Char)
  | 0, _ => none
  | fuel + 1, l => do
    let lk := skipWs l
    match lk with
    | '"' :: kr =>
      let (k, r1) ← parseStringRest kr
      match skipWs r1 with
      | ':' :: r2 => do
        let (v, r3) ← parseVal fuel r2
        match skipWs r3 with
        | ',' :: r4 => (parseMembers fuel r4).map (fun p => ((⟨k⟩, v) :: p.1, p.2))
        | '\x7d' :: r4 => some ([(⟨k⟩, v)], r4)
        | _ => none
      | _ => none
    | _ => none

end

/-- `json.loads`: one JSON value, then only trailing whitespace. The fuel
bounds the recursion depth; `2 · length + 2` is ample, since every two nested
reader calls consume at least one input character. -/
def pyJsonLoads (t : List Char) : Option Json :=
  match parseVal (2 * t.length + 2) t with
  | some (j, r) => if skipWs r = [] then some j else none
  | none => none

/-! ### `GeminiAnalyzer._parse_response` (`src/tools/gemini_analyzer.py`)

```python
try:
    start_idx = response_text.find('\x7b')
    end_idx = response_text.rfind('\x7d') + 1
    if start_idx != -1 and end_idx > start_idx:
        json_str = response_text[start_idx:end_idx]
        return json.loads(json_str)
    else:
        return json.loads(response_text)
except json.JSONDecodeError as e:
    return \x7b "company_summary": "Unable to generate summary", ... \x7d
```
-/

/-- Python `s.find(c)`: index of the first occurrence, `-1` when absent. -/
def pyFind (l : List Char) (c : Char) : Int :=
  match l.findIdx? (fun d => d = c) with
  | some i => (i : Int)
  | none => -1

/-- Python `s.rfind(c)`: index of the last occurrence, `-1` when absent. -/
def pyRfind (l : List Char) (c : Char) : Int :=
  match l.reverse.findIdx? (fun d => d = c) with
  | some i => (l.length : Int) - 1 - (i : Int)
  | none => -1

/-- Python `s[a:b]` for `0 ≤ a, b` (the only indices `_parse_response` uses). -/
def pySlice (l : List Char) (a b : Int) : List Char :=
  (l.take b.toNat).drop a.toNat

/-- The fixed placeholder returned when the model output cannot be parsed. -/
def defaultInsight : Json :=
  Json.obj
    [("company_summary", Json.str "Unable to generate summary"),
     ("industry_category", Json.str "Unknown"),
     ("target_audience", Json.str "Unknown"),
     ("key_problems_solved", Json.arr []),
     ("potential_competitors", Json.arr []),
     ("news_summary", Json.str "Unable to summarize news")]

/-- The substring between the first `'\x7b'` and the last `'\x7d'` when that
span is nonempty — exactly the `json_str` branch condition of the source. -/
def braceSubstring (t : List Char) : Option (List Char) :=
  if pyFind t '\x7b' ≠ -1 ∧ pyRfind t '\x7d' + 1 > pyFind t '\x7b' then
    some (pySlice t (pyFind t '\x7b') (pyRfind t '\x7d' + 1))
  else none

/-- `GeminiAnalyzer._parse_response`. -/
def parse_response (t : List Char) : Json :=
  if pyFind t '\x7b' ≠ -1 ∧ pyRfind t '\x7d' + 1 > pyFind t '\x7b' then
    match pyJsonLoads (pySlice t (pyFind t '\x7b') (pyRfind t '\x7d' + 1)) with
    | some j => j
    | none => defaultInsight
  else
    match pyJsonLoads t with
    | some j => j
    | none => defaultInsight

/-! ### `NewsFetcher.fetch_company_news` (`src/tools/news_fetcher.py`)

The SerpAPI response is a dictionary; the source branches on whether the key
`"news_results"` is present (`if "news_results" in results`), else on whether
`"organic_results"` is present, else returns the empty list. Presence of a key
with an empty list is therefore distinct from absence, so both result lists are
`Option`s here. Items are dictionaries with optional string fields, except that
`"source"` on a news item may be a dictionary carrying a `"name"`.
-/

/-- The `"source"` field of a news item: a dict with an optional name, a plain
string, or absent. -/
inductive SourceField where
  | dict (name : Option String) : SourceField
  | str (s : String) : SourceField
  | absent : SourceField
deriving Repr, DecidableEq

/-- One item of `news_results` or `organic_results`. -/
structure SerpItem where
  title : Option String
  snippet : Option String
  link : Option String
  date : Option String
  source : SourceField
  displayed_link : Option String
deriving Repr, DecidableEq

/-- The fields of the SerpAPI response dictionary the source reads. -/
structure SerpResults where
  news_results : Option (List SerpItem)
  organic_results : Option (List SerpItem)
deriving Repr, DecidableEq

/-- The news-item mapping of the `"news_results"` branch. -/
def newsArticleOfNewsItem (article : SerpItem) : NewsArticle :=
  { title := article.title.getD ""
    snippet := article.snippet.getD ""
    source := article.link.getD ""
    date := article.date.getD ""
    source_name :=
      match article.source with
      | .dict name => name.getD ""
      | .str s => s
      | .absent => "" }

/-- The organic-result mapping of the fallback branch: page link as source,
displayed link as source name. -/
def newsArticleOfOrganicItem (result : SerpItem) : NewsArticle :=
  { title := result.title.getD ""
    snippet := result.snippet.getD ""
    source := result.link.getD ""
    date := result.date.getD ""
    source_name := result.displayed_link.getD "" }

/-- `NewsFetcher.fetch_company_news`, given the provider's (successful)
response; the provider-error path returns `[]` at the orchestrator level. -/
def fetch_company_news (results : SerpResults) (num_results : Nat) : List NewsArticle :=
  match results.news_results with
  | some articles => (articles.take num_results).map newsArticleOfNewsItem
  | none =>
    match results.organic_results with
    | some rs => (rs.take num_results).map newsArticleOfOrganicItem
    | none => []

/-! ### `WebScraper` (`src/tools/web_scraper.py`)

The fetched document is modelled after parsing: the pieces BeautifulSoup hands
the source — title text, the description meta tag's `content`, the `.text` of
each `h1`/`h2`, each anchor's `href`, and `soup.get_text()` after dropping
`script`/`style` subtrees (`bodyText`). The whitespace normalisation, link
resolution, same-host filtering, deduplication and truncation are the source's
own code and are embedded faithfully.
-/

/-- Python `str.strip()` whitespace (ASCII). -/
def pyIsSpace (c : Char) : Bool :=
  c == ' ' || c == '\t' || c == '\n' || c == '\r' || c == '\x0b' || c == '\x0c'

def pyStripL (l : List Char) : List Char :=
  ((l.dropWhile pyIsSpace).reverse.dropWhile pyIsSpace).reverse

def pyStrip (s : String) : String := ⟨pyStripL s.data⟩

/-- A character that does not end a line. -/
def lineChar (c : Char) : Bool := c ≠ '\n' && c ≠ '\r'

/-- Python `str.splitlines()` for `\n`, `\r` and `\r\n`. -/
def pySplitlines (l : List Char) : List (List Char) :=
  if l = [] then []
  else
    let line := l.takeWhile lineChar
    match hr : l.dropWhile lineChar with
    | '\r' :: '\n' :: r => line :: pySplitlines r
    | '\r' :: r => line :: pySplitlines r
    | '\n' :: r => line :: pySplitlines r
    | _ => [line]
termination_by l.length
decreasing_by
  all_goals
    have hd := (List.dropWhile_sublist (l := l) (p := lineChar)).length_le
    rw [hr] at hd
    simp only [List.length_cons] at hd
    omega

/-- Python `line.split("  ")` (split on every occurrence of two spaces). -/
def splitTwoSpace : List Char → List (List Char)
  | ' ' :: ' ' :: r => [] :: splitTwoSpace r
  | c :: r =>
    match splitTwoSpace r with
    | h :: t => (c :: h) :: t
    | [] => [[c]]
  | [] => [[]]

/-- `WebScraper._extract_content` after the script/style removal: strip each
line, split double-space runs, drop blanks, join with single spaces. -/
def extract_content (bodyText : List Char) : List Char :=
  let lines := (pySplitlines bodyText).map pyStripL
  let chunks := lines.flatMap (fun line => (splitTwoSpace line).map pyStripL)
  List.intercalate [' '] (chunks.filter (fun chunk => chunk ≠ []))

/-- The parsed document handed to the source by BeautifulSoup. -/
structure Soup where
  title : Option String
  metaDescription : Option String
  h1s : List String
  h2s : List String
  anchors : List String
  bodyText : String
deriving Repr, DecidableEq

/-- `urllib.parse.urljoin`, restricted to the shapes that occur here: an
absolute reference wins outright; a protocol-relative, root-relative or
relative reference is resolved against the base's scheme / netloc / path
(without `.`/`..` normalisation, which the embedding does not need). -/
def urljoin (base url : String) : String :=
  if base = "" then url
  else if url = "" then base
  else
    let u := url.data
    let pre := u.takeWhile (fun c => c ≠ ':')
    let post := u.dropWhile (fun c => c ≠ ':')
    if post ≠ [] ∧ pre ≠ [] ∧ validScheme pre = true then url
    else
      let b := pyUrlparse base.data
      if u.take 2 = ['/', '/'] then ⟨b.scheme ++ ':' :: u⟩
      else if u.take 1 = ['/'] then ⟨b.scheme ++ ':' :: '/' :: '/' :: (b.netloc ++ u)⟩
      else
        let dir :=
          if b.path.any (fun c => c = '/') then
            (b.path.reverse.dropWhile (fun c => c ≠ '/')).reverse
          else ['/']
        ⟨b.scheme ++ ':' :: '/' :: '/' :: (b.netloc ++ dir ++ u)⟩

/-- `WebScraper._extract_outbound_links`: resolve each href against the page
URL, keep those whose host differs from the page's own, deduplicate
(`list(set(...))`, order not guaranteed). -/
def extract_outbound_links (soup : Soup) (base_url : String) : List String :=
  let base_domain := (pyUrlparse base_url.data).netloc
  ((soup.anchors.map (fun href => urljoin base_url href)).filter
    (fun absolute_url => (pyUrlparse absolute_url.data).netloc ≠ base_domain)).dedup

/-- The dictionary `WebScraper.scrape_website` returns on success
(`scraped_at` elided). -/
structure ScrapedPage where
  url : String
  title : String
  meta_description : String
  h1_tags : List String
  h2_tags : List String
  outbound_links : List String
  content : String
deriving Repr, DecidableEq

/-- `WebScraper.scrape_website`, given the fetched document (the
network-failure path raises and is handled by the orchestrator). -/
def scrape_website (soup : Soup) (url : String) : ScrapedPage :=
  { url := url
    title := (soup.title.map pyStrip).getD ""
    meta_description := soup.metaDescription.getD ""
    h1_tags := soup.h1s.map pyStrip
    h2_tags := soup.h2s.map pyStrip
    outbound_links := (extract_outbound_links soup url).take 20
    content := ⟨(extract_content soup.bodyText.data).take 5000⟩ }

/-! ### `StartupProfilerAgent` (`src/agents/startup_profiler_agent.py`)

`profile_company` runs the linear pipeline. The collaborators' behaviour for
the run is an environment: the store state plus what the scraper and analyzer
would do (both may raise: `Except`), and the news fetcher's result (it swallows
provider errors and returns a list). The outcome records the returned
dictionary, the store contents afterwards, and which collaborator operations
were invoked, in order.
-/

/-- ASCII upper-casing of one character (for Python `str.capitalize`). -/
def upperChar (c : Char) : Char :=
  if h : 97 ≤ c.toNat ∧ c.toNat ≤ 122 then
    ⟨c.val - 32, by
      left
      show (c.val - 32).toNat < 55296
      have h1 : (32 : UInt32).toNat ≤ c.val.toNat := by
        have := h.1
        simp only [Char.toNat] at this
        show 32 ≤ c.val.toNat
        omega
      rw [UInt32.toNat_sub_of_le _ _ h1]
      have := h.2
      simp only [Char.toNat] at this ⊢
      omega⟩
  else c

/-- Python `str.capitalize()`: first character upper-cased, the rest lowered. -/
def pyCapitalize (l : List Char) : List Char :=
  match l with
  | [] => []
  | c :: rest => upperChar c :: rest.map lowerChar

/-- `StartupProfilerAgent._extract_company_name`. -/
def extract_company_name (url : String) : String :=
  let parsed := pyUrlparse url.data
  let domain := removeWww parsed.netloc
  let parts := domain.splitOn '.'
  if parts.length > 1 then ⟨pyCapitalize (parts.headI)⟩ else ⟨pyCapitalize domain⟩

/-- The six-field analysis dictionary the prompt requests (what
`GeminiAnalyzer.analyze_company` yields when the backend call succeeds). -/
structure Insight where
  company_summary : String
  industry_category : String
  target_audience : String
  key_problems_solved : List String
  potential_competitors : List String
  news_summary : String
deriving Repr, DecidableEq

/-- The collaborators' behaviour for one profiling run. -/
structure AgentEnv where
  dbOk : Bool
  table : Table
  scrape : Except String ScrapedPage
  news : List NewsArticle
  analysis : Except String Insight
deriving Repr

/-- The value `profile_company` returns, plus the store afterwards and the
trace of collaborator operations invoked. -/
structure RunOutcome where
  status : String
  message : String
  data : Option CompanyRecord
  table : Table
  calls : List String
deriving Repr, DecidableEq

/-- `StartupProfilerAgent.profile_company`. -/
def profile_company (env : AgentEnv) (website_url : String) : RunOutcome :=
  let company_name := extract_company_name website_url
  if check_company_exists env.dbOk env.table website_url then
    { status := "exists"
      message := "Company profile already exists in database"
      data := get_company_profile env.dbOk env.table website_url
      table := env.table
      calls := ["check_company_exists", "get_company_profile"] }
  else
    match env.scrape with
    | .error e =>
      { status := "error", message := e, data := none, table := env.table
        calls := ["check_company_exists", "scrape_website"] }
    | .ok scraped =>
      match env.analysis with
      | .error e =>
        { status := "error", message := e, data := none, table := env.table
          calls := ["check_company_exists", "scrape_website", "fetch_company_news",
                    "analyze_company"] }
      | .ok analysis =>
        let profile_data : ProfileData :=
          { website_url := website_url
            company_name := if company_name ≠ "" then company_name else scraped.title
            page_title := scraped.title
            meta_description := scraped.meta_description
            h1_tags := scraped.h1_tags
            h2_tags := scraped.h2_tags
            outbound_links := scraped.outbound_links
            scraped_content := scraped.content
            latest_news := env.news
            company_summary := analysis.company_summary
            industry_category := analysis.industry_category
            target_audience := analysis.target_audience
            key_problems_solved := analysis.key_problems_solved
            potential_competitors := analysis.potential_competitors
            news_summary := analysis.news_summary }
        match save_company_profile env.dbOk env.table profile_data with
        | .error e =>
          { status := "error", message := e, data := none, table := env.table
            calls := ["check_company_exists", "scrape_website", "fetch_company_news",
                      "analyze_company", "save_company_profile"] }
        | .ok (table', saved) =>
          { status := "success"
            message := "Company profile created successfully"
            data := some saved
            table := table'
            calls := ["check_company_exists", "scrape_website", "fetch_company_news",
                      "analyze_company", "save_company_profile"] }

/-! ## List and character lemmas about the URL machinery -/

theorem takeWhile_eq_self_of_all (p : Char → Bool) (l : List Char)
    (h : ∀ c ∈ l, p c = true) : l.takeWhile p = l := by
  induction l with
  | nil => rfl
  | cons c r ih =>
    rw [List.takeWhile_cons_of_pos (h c (List.mem_cons_self c r)),
      ih (fun d hd => h d (List.mem_cons_of_mem c hd))]

theorem dropWhile_eq_nil_of_all (p : Char → Bool) (l : List Char)
    (h : ∀ c ∈ l, p c = true) : l.dropWhile p = [] := by
  induction l with
  | nil => rfl
  | cons c r ih =>
    rw [List.dropWhile_cons_of_pos (h c (List.mem_cons_self c r)),
      ih (fun d hd => h d (List.mem_cons_of_mem c hd))]

theorem takeWhile_append_all (p : Char → Bool) (xs ys : List Char)
    (h : ∀ c ∈ xs, p c = true) :
    (xs ++ ys).takeWhile p = xs ++ ys.takeWhile p := by
  induction xs with
  | nil => rfl
  | cons c r ih =>
    rw [List.cons_append, List.takeWhile_cons_of_pos (h c (List.mem_cons_self c r)),
      ih (fun d hd => h d (List.mem_cons_of_mem c hd))]
    rfl

theorem dropWhile_append_all (p : Char → Bool) (xs ys : List Char)
    (h : ∀ c ∈ xs, p c = true) :
    (xs ++ ys).dropWhile p = ys.dropWhile p := by
  induction xs with
  | nil => rfl
  | cons c r ih =>
    rw [List.cons_append, List.dropWhile_cons_of_pos (h c (List.mem_cons_self c r)),
      ih (fun d hd => h d (List.mem_cons_of_mem c hd))]

theorem takeWhile_append_of_stop (p : Char → Bool) (xs ys : List Char)
    (c : Char) (hc : c ∈ xs) (hp : p c = false) :
    (xs ++ ys).takeWhile p = xs.takeWhile p := by
  induction xs with
  | nil => exact absurd hc (by simp)
  | cons d r ih =>
    by_cases hd : p d = true
    · rw [List.cons_append, List.takeWhile_cons_of_pos hd, List.takeWhile_cons_of_pos hd]
      rcases List.mem_cons.mp hc with h | h
      · rw [h] at hp
        rw [hp] at hd
        exact absurd hd (by simp)
      · rw [ih h]
    · rw [List.cons_append, List.takeWhile_cons_of_neg (by simp [hd]),
        List.takeWhile_cons_of_neg (by simp [hd])]

theorem dropWhile_append_of_stop (p : Char → Bool) (xs ys : List Char)
    (c : Char) (hc : c ∈ xs) (hp : p c = false) :
    (xs ++ ys).dropWhile p = xs.dropWhile p ++ ys ∧ xs.dropWhile p ≠ [] := by
  induction xs with
  | nil => exact absurd hc (by simp)
  | cons d r ih =>
    by_cases hd : p d = true
    · rw [List.cons_append, List.dropWhile_cons_of_pos hd, List.dropWhile_cons_of_pos hd]
      rcases List.mem_cons.mp hc with h | h
      · rw [h] at hp
        rw [hp] at hd
        exact absurd hd (by simp)
      · exact ih h
    · rw [List.cons_append, List.dropWhile_cons_of_neg (by simp [hd]),
        List.dropWhile_cons_of_neg (by simp [hd])]
      exact ⟨rfl, by simp⟩

theorem mem_takeWhile_sub (p : Char → Bool) (l : List Char) (c : Char)
    (h : c ∈ l.takeWhile p) : c ∈ l :=
  (List.takeWhile_sublist p).mem h

theorem mem_dropWhile_sub (p : Char → Bool) (l : List Char) (c : Char)
    (h : c ∈ l.dropWhile p) : c ∈ l :=
  (List.dropWhile_sublist p).mem h

theorem pred_of_mem_takeWhile (p : Char → Bool) (l : List Char) (c : Char)
    (h : c ∈ l.takeWhile p) : p c = true :=
  List.mem_takeWhile_imp h

/-- A character that fails `schemeChar` anywhere in a candidate scheme makes it
invalid. -/
theorem validScheme_eq_false_of_mem (l : List Char) (c : Char) (hc : c ∈ l)
    (hs : schemeChar c = false) : validScheme l = false := by
  cases l with
  | nil => rfl
  | cons d r =>
    rcases List.mem_cons.mp hc with h | h
    · rw [validScheme]
      have : d.isAlpha = false := by
        rw [← h] at *
        unfold schemeChar at hs
        rw [Bool.or_eq_false_iff, Bool.or_eq_false_iff, Bool.or_eq_false_iff] at hs
        unfold Char.isAlphanum at hs
        rw [Bool.or_eq_false_iff] at hs
        exact hs.1.1.1.1

      rw [this]
      rfl
    · rw [validScheme]
      have : r.all schemeChar = false := by
        rw [List.all_eq_false]
        exact ⟨c, h, by simp [hs]⟩
      rw [this, Bool.and_false]

/-- A valid scheme contains no `':'`. -/
theorem validScheme_no_colon (l : List Char) (hv : validScheme l = true) :
    ∀ c ∈ l, c ≠ ':' := by
  intro c hc heq
  rw [heq] at hc
  rw [validScheme_eq_false_of_mem l ':' hc (by decide)] at hv
  exact Bool.noConfusion hv

/-! ## The query string never reaches the normalized key

`_normalize_url` rebuilds the key from scheme, netloc and path only. The three
stage lemmas below show that each parsing stage of a URL of the form
`base ++ "?" ++ query` (with the `'?'` not preceded by another `'?'` or a
`'#'`) depends only on `base`.
-/

theorem splitScheme_before_query (B : List Char) (hq : '?' ∉ B) :
    ∃ S B', (∀ c, c ∈ B' → c ∈ B) ∧
      ∀ Q : List Char, splitScheme (B ++ '?' :: Q) = (S, B' ++ '?' :: Q) := by
  by_cases hc : ':' ∈ B
  · have htake : ∀ Q : List Char,
        (B ++ '?' :: Q).takeWhile (fun c => c ≠ ':') = B.takeWhile (fun c => c ≠ ':') :=
      fun Q => takeWhile_append_of_stop _ B _ ':' hc (by simp)
    have hdrop : ∀ Q : List Char,
        (B ++ '?' :: Q).dropWhile (fun c => c ≠ ':') =
          B.dropWhile (fun c => c ≠ ':') ++ '?' :: Q :=
      fun Q => (dropWhile_append_of_stop _ B _ ':' hc (by simp)).1
    have hne : B.dropWhile (fun c => c ≠ ':') ≠ [] :=
      (dropWhile_append_of_stop _ B [] ':' hc (by simp)).2
    by_cases hok : B.takeWhile (fun c => c ≠ ':') ≠ [] ∧
        validScheme (B.takeWhile (fun c => c ≠ ':')) = true
    · refine ⟨(B.takeWhile (fun c => c ≠ ':')).map lowerChar,
        (B.dropWhile (fun c => c ≠ ':')).tail, ?_, ?_⟩
      · intro c h
        exact mem_dropWhile_sub _ B c (List.mem_of_mem_tail h)
      · intro Q
        unfold splitScheme
        rw [htake Q, hdrop Q,
          if_pos ⟨by simp, hok.1, hok.2⟩]
        cases hB : B.dropWhile (fun c => c ≠ ':') with
        | nil => exact absurd hB hne
        | cons d t => rfl
    · refine ⟨[], B, fun c h => h, ?_⟩
      intro Q
      unfold splitScheme
      rw [htake Q, hdrop Q, if_neg (by
        intro hcond
        exact hok ⟨hcond.2.1, hcond.2.2⟩)]
  · have hall : ∀ c ∈ B, (fun c => decide (c ≠ ':')) c = true := by
      intro c h
      simp only [decide_eq_true_eq]
      intro heq
      rw [heq] at h
      exact hc h
    refine ⟨[], B, fun c h => h, ?_⟩
    intro Q
    unfold splitScheme
    rw [takeWhile_append_all _ B _ hall, if_neg (by
      intro hcond
      have hmem : '?' ∈ B ++ ('?' :: Q).takeWhile (fun c => c ≠ ':') := by
        apply List.mem_append_right
        rw [List.takeWhile_cons_of_pos (by simp)]
        exact List.mem_cons_self _ _
      rw [validScheme_eq_false_of_mem _ '?' hmem (by decide)] at hcond
      exact Bool.noConfusion hcond.2.2)]

theorem splitNetloc_before_query (B : List Char) (hq : '?' ∉ B) :
    ∃ N B', (∀ c, c ∈ B' → c ∈ B) ∧
      ∀ Q : List Char, splitNetloc (B ++ '?' :: Q) = (N, B' ++ '?' :: Q) := by
  match B with
  | [] =>
    refine ⟨[], [], fun c h => h, ?_⟩
    intro Q
    unfold splitNetloc
    rw [if_neg (by
      intro hcond
      rw [List.nil_append, List.take_cons (by omega)] at hcond
      exact absurd (List.head_eq_of_cons_eq hcond) (by decide))]
  | [a] =>
    refine ⟨[], [a], fun c h => h, ?_⟩
    intro Q
    unfold splitNetloc
    rw [if_neg (by
      intro hcond
      rw [List.cons_append, List.nil_append, List.take_cons (by omega),
        List.take_cons (by omega)] at hcond
      exact absurd (List.head_eq_of_cons_eq (List.tail_eq_of_cons_eq hcond))
        (by decide))]
  | a :: b :: t =>
    have htk : ∀ Q : List Char, ((a :: b :: t) ++ '?' :: Q).take 2 = [a, b] := by
      intro Q
      rfl
    by_cases hab : a = '/' ∧ b = '/'
    · have hqt : '?' ∉ t := fun h => hq (by simp [h])
      by_cases hall : ∀ c ∈ t, netlocChar c = true
      · refine ⟨t, [], fun c h => absurd h (by simp), ?_⟩
        intro Q
        unfold splitNetloc
        rw [if_pos (by rw [htk Q, hab.1, hab.2]),
          show ((a :: b :: t) ++ '?' :: Q).drop 2 = t ++ '?' :: Q from rfl,
          takeWhile_append_all netlocChar t _ hall,
          dropWhile_append_all netlocChar t _ hall,
          List.takeWhile_cons_of_neg (by decide),
          List.dropWhile_cons_of_neg (by decide),
          List.append_nil]
        rfl
      · rw [not_forall] at hall
        obtain ⟨c, hcmem⟩ := hall
        rw [Classical.not_imp] at hcmem
        have hcf : netlocChar c = false := by
          rcases Bool.eq_false_or_eq_true (netlocChar c) with h | h
          · exact absurd h hcmem.2
          · exact h
        refine ⟨t.takeWhile netlocChar, t.dropWhile netlocChar,
          fun d h => by simp [mem_dropWhile_sub netlocChar t d h], ?_⟩
        intro Q
        unfold splitNetloc
        rw [if_pos (by rw [htk Q, hab.1, hab.2]),
          show ((a :: b :: t) ++ '?' :: Q).drop 2 = t ++ '?' :: Q from rfl,
          takeWhile_append_of_stop netlocChar t _ c hcmem.1 hcf,
          (dropWhile_append_of_stop netlocChar t _ c hcmem.1 hcf).1]
    · refine ⟨[], a :: b :: t, fun c h => h, ?_⟩
      intro Q
      unfold splitNetloc
      rw [if_neg (by
        intro hcond
        rw [htk Q] at hcond
        exact hab ⟨List.head_eq_of_cons_eq hcond,
          List.head_eq_of_cons_eq (List.tail_eq_of_cons_eq hcond)⟩)]

theorem pathOf_before_query (B Q : List Char) (hq : '?' ∉ B) (hh : '#' ∉ B)
    (hQ : '#' ∉ Q) : pathOf (B ++ '?' :: Q) = splitParams B := by
  unfold pathOf
  have h1 : (B ++ '?' :: Q).takeWhile (fun c => c ≠ '#') = B ++ '?' :: Q := by
    apply takeWhile_eq_self_of_all
    intro c hcm
    simp only [decide_eq_true_eq]
    intro heq
    rw [heq] at hcm
    rcases List.mem_append.mp hcm with h | h
    · exact hh h
    · rcases List.mem_cons.mp h with h | h
      · exact absurd h (by decide)
      · exact hQ h
  have h2 : (B ++ '?' :: Q).takeWhile (fun c => c ≠ '?') = B := by
    rw [takeWhile_append_all _ B _ (by
        intro c hcm
        simp only [decide_eq_true_eq]
        intro heq
        rw [heq] at hcm
        exact hq hcm),
      List.takeWhile_cons_of_neg (by simp), List.append_nil]
  rw [h1, h2]

/-- The parse of `base ++ "?" ++ query` does not depend on the query. -/
theorem pyUrlparse_drops_query (B Q1 Q2 : List Char) (hq : '?' ∉ B)
    (hh : '#' ∉ B) (h1 : '#' ∉ Q1) (h2 : '#' ∉ Q2) :
    pyUrlparse (B ++ '?' :: Q1) = pyUrlparse (B ++ '?' :: Q2) := by
  obtain ⟨S, B', hB's, hS⟩ := splitScheme_before_query B hq
  have hq' : '?' ∉ B' := fun h => hq (hB's _ h)
  have hh' : '#' ∉ B' := fun h => hh (hB's _ h)
  obtain ⟨N, B'', hB''s, hN⟩ := splitNetloc_before_query B' hq'
  have hq'' : '?' ∉ B'' := fun h => hq' (hB''s _ h)
  have hh'' : '#' ∉ B'' := fun h => hh' (hB''s _ h)
  unfold pyUrlparse
  rw [hS Q1, hS Q2]
  dsimp only
  rw [hN Q1, hN Q2]
  dsimp only
  rw [pathOf_before_query B'' Q1 hq'' hh'' h1, pathOf_before_query B'' Q2 hq'' hh'' h2]

/-! ## Trailing-slash stripping, params splitting and parse-shape lemmas -/

theorem dropWhile_head?_false (p : Char → Bool) (l : List Char) (c : Char)
    (h : (l.dropWhile p).head? = some c) : p c = false := by
  induction l with
  | nil => exact absurd h (by simp)
  | cons d r ih =>
    by_cases hd : p d = true
    · rw [List.dropWhile_cons_of_pos hd] at h
      exact ih h
    · rw [List.dropWhile_cons_of_neg (by simp [hd]), List.head?_cons,
        Option.some.injEq] at h
      rw [← h]
      rcases Bool.eq_false_or_eq_true (p d) with hb | hb
      · exact absurd hb hd
      · exact hb

theorem rstripSlash_append (xs ys : List Char) :
    rstripSlash (xs ++ ys) =
      if rstripSlash ys = [] then rstripSlash xs else xs ++ rstripSlash ys := by
  unfold rstripSlash
  rw [List.reverse_append, List.dropWhile_append]
  by_cases hy : (ys.reverse.dropWhile (fun c => c = '/')).isEmpty = true
  · rw [if_pos hy, if_pos (by
      rw [List.isEmpty_iff] at hy
      rw [hy]
      rfl)]
  · rw [if_neg hy, if_neg (by
      rw [List.isEmpty_iff] at hy
      intro hc
      apply hy
      rw [← List.reverse_reverse (List.dropWhile _ ys.reverse), hc]
      rfl)]
    rw [List.reverse_append, List.reverse_reverse]

theorem rstripSlash_prefixOf (l : List Char) : rstripSlash l <+: l := by
  rw [← List.reverse_suffix]
  show (rstripSlash l).reverse <:+ l.reverse
  unfold rstripSlash
  rw [List.reverse_reverse]
  exact List.dropWhile_suffix _

theorem mem_rstripSlash (l : List Char) (c : Char) (h : c ∈ rstripSlash l) :
    c ∈ l :=
  (rstripSlash_prefixOf l).sublist.mem h

theorem head?_of_prefixOf (t l : List Char) (h : t <+: l) (hne : t ≠ []) :
    t.head? = l.head? := by
  obtain ⟨r, hr⟩ := h
  cases t with
  | nil => exact absurd rfl hne
  | cons c s => rw [← hr]; rfl

theorem rstripSlash_idem (l : List Char) :
    rstripSlash (rstripSlash l) = rstripSlash l := by
  unfold rstripSlash
  rw [List.reverse_reverse]
  cases hd : l.reverse.dropWhile (fun c => c = '/') with
  | nil => rfl
  | cons c t =>
    rw [List.dropWhile_cons_of_neg (by
      have := dropWhile_head?_false (fun c => c = '/') l.reverse c (by rw [hd]; rfl)
      simp only [this]
      exact Bool.noConfusion)]

theorem rstripSlash_eq_self_of_last (l : List Char)
    (h : ∀ c, l.reverse.head? = some c → c ≠ '/') : rstripSlash l = l := by
  unfold rstripSlash
  cases hrv : l.reverse with
  | nil =>
    rw [← List.reverse_reverse l, hrv]
    rfl
  | cons c t =>
    rw [List.dropWhile_cons_of_neg (by
        simp only [decide_eq_true_eq]
        exact h c (by rw [hrv]; rfl)),
      ← hrv, List.reverse_reverse]

theorem splitParams_prefixOf (p : List Char) : splitParams p <+: p := by
  simp only [splitParams]
  split
  · have hp : (p.reverse.dropWhile (fun c => c ≠ '/')).reverse ++
        (p.reverse.takeWhile (fun c => c ≠ '/')).reverse = p := by
      rw [← List.reverse_append, List.takeWhile_append_dropWhile, List.reverse_reverse]
    conv_rhs => rw [← hp]
    rw [List.prefix_append_right_inj]
    exact List.takeWhile_prefix _
  · exact List.prefix_refl p

theorem mem_splitParams (p : List Char) (c : Char) (h : c ∈ splitParams p) :
    c ∈ p :=
  (splitParams_prefixOf p).sublist.mem h

theorem splitParams_eq_self_of_no_semi (p : List Char) (h : ';' ∉ p) :
    splitParams p = p := by
  simp only [splitParams]
  rw [if_neg (by
    intro hc
    rw [List.any_eq_true] at hc
    obtain ⟨c, hcm, hcp⟩ := hc
    rw [decide_eq_true_eq] at hcp
    rw [hcp] at hcm
    exact h (List.mem_reverse.mp
      (mem_takeWhile_sub _ _ _ (List.mem_reverse.mp hcm))))]

theorem all_lowered_pyLower (l : List Char) : ∀ c ∈ pyLower l, lowerChar c = c := by
  intro c hc
  obtain ⟨d, _, hd⟩ := List.mem_map.mp hc
  rw [← hd, lowerChar_lowerChar]

theorem map_lowerChar_eq_self_of_all (l : List Char) (h : ∀ c ∈ l, lowerChar c = c) :
    l.map lowerChar = l := by
  induction l with
  | nil => rfl
  | cons c r ih =>
    rw [List.map_cons, h c (List.mem_cons_self c r),
      ih (fun d hd => h d (List.mem_cons_of_mem c hd))]

/-- Either branch of `splitScheme`, with what it implies. -/
theorem splitScheme_eq (url : List Char) :
    splitScheme url = ([], url) ∨
      (splitScheme url =
          ((url.takeWhile (fun c => c ≠ ':')).map lowerChar,
            (url.dropWhile (fun c => c ≠ ':')).tail) ∧
        validScheme (url.takeWhile (fun c => c ≠ ':')) = true) := by
  unfold splitScheme
  by_cases h : url.dropWhile (fun c => c ≠ ':') ≠ [] ∧
      url.takeWhile (fun c => c ≠ ':') ≠ [] ∧
      validScheme (url.takeWhile (fun c => c ≠ ':')) = true
  · exact Or.inr ⟨by rw [if_pos h], h.2.2⟩
  · exact Or.inl (by rw [if_neg h])

/-- Either branch of `splitNetloc`. -/
theorem splitNetloc_eq (rest : List Char) :
    splitNetloc rest = ([], rest) ∨
      splitNetloc rest =
        ((rest.drop 2).takeWhile netlocChar, (rest.drop 2).dropWhile netlocChar) := by
  unfold splitNetloc
  by_cases h : rest.take 2 = ['/', '/']
  · exact Or.inr (by rw [if_pos h])
  · exact Or.inl (by rw [if_neg h])

/-- Structural facts about every parse result: netloc characters pass the
netloc filter, the path contains no `'?'` or `'#'`, the scheme is made of
lower-case images; and when the input is its own lower-casing, so are the
netloc and path, and a nonempty scheme is a valid scheme fixed by lowering. -/
theorem pyUrlparse_shape (l : List Char) (hl : ∀ c ∈ l, lowerChar c = c) :
    (∀ c ∈ (pyUrlparse l).netloc, netlocChar c = true ∧ lowerChar c = c) ∧
    (∀ c ∈ (pyUrlparse l).path, c ≠ '?' ∧ c ≠ '#' ∧ lowerChar c = c) ∧
    (∀ c ∈ (pyUrlparse l).scheme, lowerChar c = c) ∧
    ((pyUrlparse l).scheme ≠ [] →
      validScheme (pyUrlparse l).scheme = true ∧
      (pyUrlparse l).scheme.map lowerChar = (pyUrlparse l).scheme) := by
  have hrest : ∀ c ∈ (splitScheme l).2, c ∈ l := by
    intro c hc
    rcases splitScheme_eq l with h | ⟨h, _⟩
    · rw [h] at hc
      exact hc
    · rw [h] at hc
      exact mem_dropWhile_sub _ l c (List.mem_of_mem_tail hc)
  have hrest2 : ∀ c ∈ (splitNetloc (splitScheme l).2).2, c ∈ l := by
    intro c hc
    rcases splitNetloc_eq (splitScheme l).2 with h | h
    · rw [h] at hc
      exact hrest c hc
    · rw [h] at hc
      exact hrest c (List.mem_of_mem_drop (mem_dropWhile_sub _ _ c hc))
  have hP : pyUrlparse l =
      ⟨(splitScheme l).1, (splitNetloc (splitScheme l).2).1,
        pathOf (splitNetloc (splitScheme l).2).2⟩ := rfl
  refine ⟨?_, ?_, ?_, ?_⟩
  · intro c hc
    rw [hP] at hc
    rcases splitNetloc_eq (splitScheme l).2 with h | h
    · rw [h] at hc
      exact absurd hc (by simp)
    · rw [h] at hc
      refine ⟨pred_of_mem_takeWhile _ _ _ hc, ?_⟩
      exact hl c (hrest c (List.mem_of_mem_drop (mem_takeWhile_sub _ _ c hc)))
  · intro c hc
    rw [hP] at hc
    unfold pathOf at hc
    have hraw := mem_splitParams _ c hc
    have hq : c ≠ '?' := by
      have := pred_of_mem_takeWhile _ _ _ hraw
      rw [decide_eq_true_eq] at this
      exact this
    have hT := mem_takeWhile_sub _ _ c hraw
    have hh : c ≠ '#' := by
      have := pred_of_mem_takeWhile _ _ _ hT
      rw [decide_eq_true_eq] at this
      exact this
    exact ⟨hq, hh, hl c (hrest2 c (mem_takeWhile_sub _ _ c hT))⟩
  · intro c hc
    rw [hP] at hc
    rcases splitScheme_eq l with h | ⟨h, _⟩
    · rw [h] at hc
      exact absurd hc (by simp)
    · rw [h] at hc
      obtain ⟨d, _, hd⟩ := List.mem_map.mp hc
      rw [← hd, lowerChar_lowerChar]
  · intro hne
    rcases splitScheme_eq l with h | ⟨h, hv⟩
    · rw [hP, h] at hne
      exact absurd rfl hne
    · have hsch : (pyUrlparse l).scheme = l.takeWhile (fun c => c ≠ ':') := by
        rw [hP, h]
        show (l.takeWhile (fun c => c ≠ ':')).map lowerChar = _
        exact map_lowerChar_eq_self_of_all _
          (fun c hc => hl c (mem_takeWhile_sub _ l c hc))
      rw [hsch]
      refine ⟨hv, map_lowerChar_eq_self_of_all _
        (fun c hc => hl c (mem_takeWhile_sub _ l c hc))⟩

/-- Parsing a reconstructed `scheme://netloc/path` URL recovers its parts. -/
theorem pyUrlparse_reconstruct (s n q : List Char)
    (hs : validScheme s = true) (hsl : s.map lowerChar = s)
    (hn : ∀ c ∈ n, netlocChar c = true)
    (hqh : q = [] ∨ q.head? = some '/')
    (hq1 : '?' ∉ q) (hq2 : '#' ∉ q) :
    pyUrlparse (s ++ ':' :: '/' :: '/' :: (n ++ q)) = ⟨s, n, splitParams q⟩ := by
  have hsne : s ≠ [] := by
    intro h
    rw [h] at hs
    exact Bool.noConfusion hs
  have hscolon : ∀ c ∈ s, (fun c => decide (c ≠ ':')) c = true := by
    intro c hc
    simp only [decide_eq_true_eq]
    exact validScheme_no_colon s hs c hc
  have h1 : splitScheme (s ++ ':' :: '/' :: '/' :: (n ++ q)) =
      (s, '/' :: '/' :: (n ++ q)) := by
    unfold splitScheme
    rw [takeWhile_append_all _ s _ hscolon, dropWhile_append_all _ s _ hscolon,
      List.takeWhile_cons_of_neg (by simp), List.dropWhile_cons_of_neg (by simp),
      List.append_nil]
    rw [if_pos ⟨by simp, hsne, hs⟩, hsl]
    rfl
  have h2 : splitNetloc ('/' :: '/' :: (n ++ q)) = (n, q) := by
    unfold splitNetloc
    have hc2 : List.take 2 ('/' :: '/' :: (n ++ q)) = ['/', '/'] := rfl
    rw [if_pos hc2]
    show ((n ++ q).takeWhile netlocChar, (n ++ q).dropWhile netlocChar) = (n, q)
    rcases hqh with hq | hq
    · rw [hq, List.append_nil, takeWhile_eq_self_of_all netlocChar n hn,
        dropWhile_eq_nil_of_all netlocChar n hn]
    · cases q with
      | nil => exact absurd hq (by simp)
      | cons c t =>
        rw [List.head?_cons, Option.some.injEq] at hq
        rw [takeWhile_append_all netlocChar n _ hn,
          dropWhile_append_all netlocChar n _ hn,
          List.takeWhile_cons_of_neg (by rw [hq]; decide),
          List.dropWhile_cons_of_neg (by rw [hq]; decide), List.append_nil]
  have h3 : pathOf q = splitParams q := by
    unfold pathOf
    rw [takeWhile_eq_self_of_all _ q (by
        intro c hc
        simp only [decide_eq_true_eq]
        intro heq
        rw [heq] at hc
        exact hq2 hc),
      takeWhile_eq_self_of_all _ q (by
        intro c hc
        simp only [decide_eq_true_eq]
        intro heq
        rw [heq] at hc
        exact hq1 hc)]
  show (let (scheme, rest) := splitScheme (s ++ ':' :: '/' :: '/' :: (n ++ q))
        let (netloc, rest2) := splitNetloc rest
        UrlParts.mk scheme netloc (pathOf rest2)) = ⟨s, n, splitParams q⟩
  rw [h1]
  dsimp only
  rw [h2]
  dsimp only
  rw [h3]

/-- Appending a nonempty slash-free tail makes trailing-slash stripping a
no-op. -/
theorem rstripSlash_append_eq_self (A B : List Char) (hB : B ≠ [])
    (hslash : '/' ∉ B) : rstripSlash (A ++ B) = A ++ B := by
  apply rstripSlash_eq_self_of_last
  intro c hc
  rw [List.reverse_append] at hc
  cases hBr : B.reverse with
  | nil => exact absurd (by rw [← List.reverse_reverse B, hBr]; rfl) hB
  | cons d t =>
    rw [hBr, List.cons_append, List.head?_cons, Option.some.injEq] at hc
    intro heq
    apply hslash
    have hdB : d ∈ B := List.mem_reverse.mp (by rw [hBr]; exact List.mem_cons_self d t)
    rw [hc, heq] at hdB
    exact hdB

/-- On an input fixed by lower-casing, normalization is the reassembly of its
own parse. -/
theorem normalizeList_eq_of_lowered (x : List Char) (hx : pyLower x = x) :
    normalizeList x =
      rstripSlash
        ((if (pyUrlparse x).scheme = ['h', 't', 't', 'p'] ∨
              (pyUrlparse x).scheme = ['h', 't', 't', 'p', 's'] then
            ['h', 't', 't', 'p', 's']
          else (pyUrlparse x).scheme) ++
          ':' :: '/' :: '/' :: (removeWww (pyUrlparse x).netloc ++ (pyUrlparse x).path)) := by
  unfold normalizeList
  rw [hx]

/-- The core of the amended idempotence claim, at the character-list level. -/
theorem normalizeList_idem (u : List Char)
    (hscheme : (pyUrlparse (pyLower u)).scheme ≠ [])
    (hwww : hasWww (removeWww (pyUrlparse (pyLower u)).netloc) = false)
    (hsemi : ';' ∉ (pyUrlparse (pyLower u)).path)
    (hslash : (pyUrlparse (pyLower u)).path = [] ∨
      (pyUrlparse (pyLower u)).path.head? = some '/') :
    normalizeList (normalizeList u) = normalizeList u := by
  obtain ⟨hnet, hpath, hschlow, hsch⟩ :=
    pyUrlparse_shape (pyLower u) (all_lowered_pyLower u)
  obtain ⟨hvalid, hmap⟩ := hsch hscheme
  set P := pyUrlparse (pyLower u) with hPdef
  set p := P.path with hpdef
  set N := removeWww P.netloc with hNdef
  set S := (if P.scheme = ['h', 't', 't', 'p'] ∨ P.scheme = ['h', 't', 't', 'p', 's'] then
      ['h', 't', 't', 'p', 's'] else P.scheme) with hSdef
  have hn1 : normalizeList u = rstripSlash (S ++ ':' :: '/' :: '/' :: (N ++ p)) := rfl
  -- facts about the forced scheme S
  have hSval : validScheme S = true := by
    rw [hSdef]
    split
    · decide
    · exact hvalid
  have hSmap : S.map lowerChar = S := by
    rw [hSdef]
    split
    · decide
    · exact hmap
  have hSlow : ∀ c ∈ S, lowerChar c = c := by
    intro c hc
    by_cases hcond : P.scheme = ['h', 't', 't', 'p'] ∨ P.scheme = ['h', 't', 't', 'p', 's']
    · rw [hSdef, if_pos hcond] at hc
      have : ∀ d ∈ (['h', 't', 't', 'p', 's'] : List Char), lowerChar d = d := by decide
      exact this c hc
    · rw [hSdef, if_neg hcond] at hc
      exact hschlow c hc
  have hSne : S ≠ [] := by
    intro h
    rw [h] at hSval
    exact Bool.noConfusion hSval
  have hSstable :
      (if S = ['h', 't', 't', 'p'] ∨ S = ['h', 't', 't', 'p', 's'] then
        ['h', 't', 't', 'p', 's'] else S) = S := by
    by_cases hcond : P.scheme = ['h', 't', 't', 'p'] ∨ P.scheme = ['h', 't', 't', 'p', 's']
    · rw [hSdef, if_pos hcond]
      decide
    · rw [hSdef, if_neg hcond, if_neg hcond]
  -- facts about the stripped netloc N
  have hNchar : ∀ c ∈ N, netlocChar c = true := by
    intro c hc
    exact (hnet c (mem_removeWww _ c (hNdef ▸ hc))).1
  have hNlow : ∀ c ∈ N, lowerChar c = c := by
    intro c hc
    exact (hnet c (mem_removeWww _ c (hNdef ▸ hc))).2
  have hNwww : removeWww N = N := removeWww_eq_self_of_not_hasWww N hwww
  have hNslash : '/' ∉ N := by
    intro h
    have := hNchar '/' h
    exact absurd this (by decide)
  -- facts about the stripped path q
  set q := rstripSlash p with hqdef
  have hqsub : ∀ c ∈ q, c ∈ p := fun c hc => mem_rstripSlash p c (hqdef ▸ hc)
  have hq1 : '?' ∉ q := fun h => (hpath _ (hqsub _ h)).1 rfl
  have hq2 : '#' ∉ q := fun h => (hpath _ (hqsub _ h)).2.1 rfl
  have hqsemi : ';' ∉ q := fun h => hsemi (hqsub _ h)
  have hqlow : ∀ c ∈ q, lowerChar c = c := fun c hc => (hpath c (hqsub c hc)).2.2
  have hqq : rstripSlash q = q := by
    rw [hqdef, rstripSlash_idem]
  have hqh : q = [] ∨ q.head? = some '/' := by
    by_cases hqe : q = []
    · exact Or.inl hqe
    · right
      rw [head?_of_prefixOf q p (hqdef ▸ rstripSlash_prefixOf p) hqe]
      rcases hslash with h | h
      · exact absurd (by rw [hqdef, h]; rfl) hqe
      · exact h
  have hassoc : ∀ x : List Char,
      S ++ ':' :: '/' :: '/' :: (N ++ x) = (S ++ ':' :: '/' :: '/' :: N) ++ x := by
    intro x
    simp
  have hlowAll : ∀ x : List Char, (∀ c ∈ x, lowerChar c = c) →
      pyLower (S ++ ':' :: '/' :: '/' :: (N ++ x)) =
        S ++ ':' :: '/' :: '/' :: (N ++ x) := by
    intro x hx
    apply map_lowerChar_eq_self_of_all
    intro c hc
    rcases List.mem_append.mp hc with h | h
    · exact hSlow c h
    · rcases List.mem_cons.mp h with h | h
      · rw [h]; decide
      · rcases List.mem_cons.mp h with h | h
        · rw [h]; decide
        · rcases List.mem_cons.mp h with h | h
          · rw [h]; decide
          · rcases List.mem_append.mp h with h | h
            · exact hNlow c h
            · exact hx c h
  have hNr : N ≠ [] → rstripSlash (S ++ ':' :: '/' :: '/' :: N) =
      S ++ ':' :: '/' :: '/' :: N := by
    intro hNe
    have h1 : S ++ ':' :: '/' :: '/' :: N = (S ++ [':', '/', '/']) ++ N := by simp
    rw [h1]
    exact rstripSlash_append_eq_self _ N hNe hNslash
  -- the second pass is the identity on `S ++ "://" ++ N ++ q` when `N ++ q ≠ []`
  have hsecond : q ≠ [] ∨ N ≠ [] →
      normalizeList (S ++ ':' :: '/' :: '/' :: (N ++ q)) =
        S ++ ':' :: '/' :: '/' :: (N ++ q) := by
    intro hne
    rw [normalizeList_eq_of_lowered _ (hlowAll q hqlow),
      pyUrlparse_reconstruct S N q hSval hSmap hNchar hqh hq1 hq2]
    dsimp only
    rw [hSstable, hNwww, splitParams_eq_self_of_no_semi q hqsemi, hassoc q,
      rstripSlash_append]
    by_cases hqe : q = []
    · rw [if_pos (by rw [hqq]; exact hqe)]
      have hNe : N ≠ [] := by
        rcases hne with h | h
        · exact absurd hqe h
        · exact h
      rw [hNr hNe, hqe, List.append_nil]
    · rw [if_neg (by rw [hqq]; exact hqe), hqq, ← hassoc q]
  -- the first pass, by cases on the stripped path and netloc
  by_cases hqe : q = []
  · by_cases hNe : N = []
    · -- degenerate case: the key collapses to `scheme ++ ":"`
      have hstrip3 : rstripSlash (S ++ [':', '/', '/']) = S ++ [':'] := by
        have h1 : S ++ [':', '/', '/'] = (S ++ [':']) ++ ['/', '/'] := by simp
        rw [h1, rstripSlash_append, if_pos (by rfl),
          rstripSlash_append_eq_self S [':'] (by simp) (by decide)]
      have ho1 : normalizeList u = S ++ [':'] := by
        rw [hn1, hNe]
        have h2 : S ++ ':' :: '/' :: '/' :: (([] : List Char) ++ p) =
            (S ++ [':', '/', '/']) ++ p := by simp
        rw [h2, rstripSlash_append, if_pos (by rw [← hqdef]; exact hqe), hstrip3]
      have hlow3 : pyLower (S ++ [':']) = S ++ [':'] := by
        apply map_lowerChar_eq_self_of_all
        intro c hc
        rcases List.mem_append.mp hc with h | h
        · exact hSlow c h
        · rcases List.mem_cons.mp h with h | h
          · rw [h]; decide
          · exact absurd h (by simp)
      have hparse3 : pyUrlparse (S ++ [':']) = ⟨S, [], []⟩ := by
        have hscolon : ∀ c ∈ S, (fun c => decide (c ≠ ':')) c = true := by
          intro c hc
          simp only [decide_eq_true_eq]
          exact validScheme_no_colon S hSval c hc
        have h1 : splitScheme (S ++ [':']) = (S, []) := by
          unfold splitScheme
          rw [takeWhile_append_all _ S _ hscolon, dropWhile_append_all _ S _ hscolon,
            List.takeWhile_cons_of_neg (by simp), List.dropWhile_cons_of_neg (by simp),
            List.append_nil]
          rw [if_pos ⟨by simp, hSne, hSval⟩, hSmap]
          rfl
        have h2 : splitNetloc ([] : List Char) = ([], []) := by
          unfold splitNetloc
          rw [if_neg (by simp)]
        show (let (scheme, rest) := splitScheme (S ++ [':'])
              let (netloc, rest2) := splitNetloc rest
              UrlParts.mk scheme netloc (pathOf rest2)) = (⟨S, [], []⟩ : UrlParts)
        rw [h1]
        dsimp only
        rw [h2]
        rfl
      rw [ho1]
      rw [normalizeList_eq_of_lowered _ hlow3, hparse3]
      dsimp only
      rw [hSstable]
      show rstripSlash (S ++ ':' :: '/' :: '/' :: ([] ++ [])) = S ++ [':']
      have h3 : S ++ ':' :: '/' :: '/' :: (([] : List Char) ++ []) =
          S ++ [':', '/', '/'] := by simp
      rw [h3, hstrip3]
    · -- path strips away, nonempty netloc: the key is `scheme ++ "://" ++ N`
      have ho1 : normalizeList u = S ++ ':' :: '/' :: '/' :: (N ++ q) := by
        rw [hn1, hassoc p, rstripSlash_append, if_pos (by rw [← hqdef]; exact hqe),
          hNr hNe, hqe, List.append_nil]
      rw [ho1, hsecond (Or.inr hNe)]
  · -- nonempty stripped path: the key is `scheme ++ "://" ++ N ++ q`
    have ho1 : normalizeList u = S ++ ':' :: '/' :: '/' :: (N ++ q) := by
      rw [hn1, hassoc p, rstripSlash_append, if_neg (by rw [← hqdef]; exact hqe),
        ← hqdef, ← hassoc q]
    rw [ho1, hsecond (Or.inl hqe)]
theorem eq_of_lowerChar_eq_symbol (c d : Char) (hd : d.toNat < 97)
    (h : lowerChar c = d) : c = d := by
  by_cases hu : 65 ≤ c.toNat ∧ c.toNat ≤ 90
  · have ht := lowerChar_toNat_of_upper c hu
    rw [h] at ht
    omega
  · rw [lowerChar_eq_self c hu] at h
    exact h

theorem notMem_pyLower_of_symbol (d : Char) (hd : d.toNat < 97) (l : List Char)
    (h : d ∉ l) : d ∉ pyLower l := by
  intro hmem
  obtain ⟨c, hc, heq⟩ := List.mem_map.mp hmem
  rw [eq_of_lowerChar_eq_symbol c d hd heq] at hc
  exact h hc

/-! ## Sample data used by witnesses -/

/-- A sample `profile_data` dictionary with a mixed-case raw URL. -/
def sampleProfileData : ProfileData :=
  { website_url := "HTTP://Example.com/"
    company_name := "Example"
    page_title := "Example Title"
    meta_description := ""
    company_summary := ""
    industry_category := ""
    target_audience := ""
    key_problems_solved := []
    potential_competitors := []
    news_summary := ""
    h1_tags := []
    h2_tags := []
    outbound_links := []
    latest_news := []
    scraped_content := "" }

/-- A stored row keyed by a normalized URL. -/
def sampleRecord : CompanyRecord :=
  { website_url := "https://example.com"
    company_name := "Example"
    page_title := "Example Title"
    meta_description := ""
    company_summary := ""
    industry_category := ""
    target_audience := ""
    key_problems_solved := []
    potential_competitors := []
    news_summary := ""
    h1_tags := []
    h2_tags := []
    outbound_links := []
    latest_news := []
    scraped_content := "" }

/-! ## The claims -/

/-- C1: every Profile Store operation keys on the normalized URL — the row
`save_company_profile` persists carries `website_url = normalize(raw)`, and two
raw URLs with the same normalization get the same answer from
`check_company_exists`. -/
theorem store_keys_on_normalized_url
    (dbOk : Bool) (table : Table) (d : ProfileData) (u1 u2 : String)
    (hnorm : normalize_url u1 = normalize_url u2) :
    (∀ table' r, save_company_profile dbOk table d = .ok (table', r) →
      r.website_url = normalize_url d.website_url) ∧
    check_company_exists dbOk table u1 = check_company_exists dbOk table u2 := by
  constructor
  · intro table' r hsave
    unfold save_company_profile at hsave
    split at hsave
    · exact absurd hsave (by simp)
    · split at hsave
      · exact absurd hsave (by simp)
      · rw [Except.ok.injEq, Prod.mk.injEq] at hsave
        rw [← hsave.2]
        rfl
  · simp only [check_company_exists, hnorm]

/-- Witness for C1 at `u1 = "HTTP://Example.com/"`, `u2 = "https://example.com"`
on an empty table. -/
theorem store_keys_on_normalized_url_witness :
    (∀ table' r, save_company_profile true [] sampleProfileData = .ok (table', r) →
      r.website_url = normalize_url sampleProfileData.website_url) ∧
    check_company_exists true [] ("HTTP://Example.com/") =
      check_company_exists true [] ("https://example.com") :=
  store_keys_on_normalized_url true [] sampleProfileData
    ("HTTP://Example.com/") ("https://example.com") (by decide)

/-- C2 counterexample: `_normalize_url` lower-cases the path as well (it calls
`url.lower()` on the whole string before parsing), so path case is not
preserved. -/
theorem normalize_lowercases_path_counterexample :
    normalize_url ("https://example.com/Path") = "https://example.com/path" ∧
    normalize_url ("https://example.com/Path") ≠ "https://example.com/Path" := by
  exact ⟨by decide, by decide⟩

/-- C2 amended: the stated equality and expected key hold, but because the
whole URL — scheme, host and path alike — is lower-cased first:
`normalize(u) = normalize(lower(u))` for every `u`. -/
theorem normalize_expected_key_whole_url_lowercased :
    normalize_url ("HTTP://WWW.Example.com/Path/") =
      normalize_url ("https://example.com/Path") ∧
    normalize_url ("HTTP://WWW.Example.com/Path/") = "https://example.com/path" ∧
    ∀ u : String, normalize_url u = normalize_url ⟨pyLower u.data⟩ := by
  refine ⟨by decide, by decide, fun u => ?_⟩
  show (⟨normalizeList u.data⟩ : String) = ⟨normalizeList (pyLower u.data)⟩
  unfold normalizeList
  rw [pyLower_idem]

/-- C3 counterexample: two URLs that differ only in their query string produce
the same normalized key — `_normalize_url` rebuilds the URL from scheme, netloc
and path only, dropping the query — so they collide on the existence check
rather than being kept distinct. -/
theorem query_only_urls_share_a_key_counterexample :
    normalize_url ("https://example.com/page?utm=1") =
      normalize_url ("https://example.com/page?utm=2") ∧
    normalize_url ("https://example.com/page?utm=1") = "https://example.com/page" ∧
    check_company_exists true [sampleRecord] ("https://example.com?a=1") =
      check_company_exists true [sampleRecord] ("https://example.com?a=2") := by
  exact ⟨by decide, by decide, by decide⟩

/-- C3 amended: two URLs that differ only in their query string (the shared
part containing no `'?'` or `'#'` of its own, the queries no `'#'`) normalize
to the same key — the query is dropped — so the existence check treats them as
the same profile. -/
theorem normalize_treats_query_urls_as_same_key
    (base q1 q2 : String) (dbOk : Bool) (table : Table)
    (hq : '?' ∉ base.data) (hh : '#' ∉ base.data)
    (h1 : '#' ∉ q1.data) (h2 : '#' ∉ q2.data) :
    normalize_url ⟨base.data ++ '?' :: q1.data⟩ =
      normalize_url ⟨base.data ++ '?' :: q2.data⟩ ∧
    check_company_exists dbOk table ⟨base.data ++ '?' :: q1.data⟩ =
      check_company_exists dbOk table ⟨base.data ++ '?' :: q2.data⟩ := by
  have hlow : ∀ q : List Char,
      pyLower (base.data ++ '?' :: q) = pyLower base.data ++ '?' :: pyLower q := by
    intro q
    unfold pyLower
    rw [List.map_append, List.map_cons, show lowerChar '?' = '?' from by decide]
  have hnorm : normalize_url ⟨base.data ++ '?' :: q1.data⟩ =
      normalize_url ⟨base.data ++ '?' :: q2.data⟩ := by
    show (⟨normalizeList (base.data ++ '?' :: q1.data)⟩ : String) =
      ⟨normalizeList (base.data ++ '?' :: q2.data)⟩
    unfold normalizeList
    rw [hlow q1.data, hlow q2.data,
      pyUrlparse_drops_query (pyLower base.data) (pyLower q1.data) (pyLower q2.data)
        (notMem_pyLower_of_symbol '?' (by decide) base.data hq)
        (notMem_pyLower_of_symbol '#' (by decide) base.data hh)
        (notMem_pyLower_of_symbol '#' (by decide) q1.data h1)
        (notMem_pyLower_of_symbol '#' (by decide) q2.data h2)]
  exact ⟨hnorm, by simp only [check_company_exists, hnorm]⟩

/-- Witness for C3 amended: a tracking parameter differing between two
otherwise identical URLs. -/
theorem normalize_treats_query_urls_as_same_key_witness :
    normalize_url ⟨("https://example.com/page").data ++ '?' :: ("utm=1").data⟩ =
      normalize_url ⟨("https://example.com/page").data ++ '?' :: ("utm=2").data⟩ ∧
    check_company_exists true [] ⟨("https://example.com/page").data ++ '?' :: ("utm=1").data⟩ =
      check_company_exists true [] ⟨("https://example.com/page").data ++ '?' :: ("utm=2").data⟩ :=
  normalize_treats_query_urls_as_same_key ("https://example.com/page") ("utm=1")
    ("utm=2") true [] (by decide) (by decide) (by decide) (by decide)

/-- C10 counterexample: `_normalize_url` is not idempotent. A scheme-less
input gains a second `"://"`; a host in which stripping `"www."` exposes a new
`"www."` is stripped again on the second pass; and a path whose trailing slash
is removed can expose `";params"` in its last segment, which the second parse
cuts. -/
theorem normalize_not_idempotent_counterexample :
    normalize_url (normalize_url ("example.com")) ≠ normalize_url ("example.com") ∧
    normalize_url (normalize_url ("http://wwww.ww.com")) ≠
      normalize_url ("http://wwww.ww.com") ∧
    normalize_url (normalize_url ("http://x.com/a;b/")) ≠
      normalize_url ("http://x.com/a;b/") := by
  exact ⟨by decide, by decide, by decide⟩

/-- C10 amended: `_normalize_url` is idempotent on every URL whose lowered
form parses with a nonempty scheme, whose `www.`-stripped netloc has no
residual `"www."`, and whose path has no `';'` and is empty or begins with
`'/'` — which covers every ordinary `http(s)://host/path` URL. -/
theorem normalize_idempotent_on_well_formed (u : String)
    (hscheme : (pyUrlparse (pyLower u.data)).scheme ≠ [])
    (hwww : hasWww (removeWww (pyUrlparse (pyLower u.data)).netloc) = false)
    (hsemi : ';' ∉ (pyUrlparse (pyLower u.data)).path)
    (hslash : (pyUrlparse (pyLower u.data)).path = [] ∨
      (pyUrlparse (pyLower u.data)).path.head? = some '/') :
    normalize_url (normalize_url u) = normalize_url u := by
  show (⟨normalizeList (normalizeList u.data)⟩ : String) = ⟨normalizeList u.data⟩
  rw [normalizeList_idem u.data hscheme hwww hsemi hslash]

/-- Witness for C10 amended at `"HTTP://WWW.Example.com/Path/"`. -/
theorem normalize_idempotent_on_well_formed_witness :
    normalize_url (normalize_url ("HTTP://WWW.Example.com/Path/")) =
      normalize_url ("HTTP://WWW.Example.com/Path/") :=
  normalize_idempotent_on_well_formed ("HTTP://WWW.Example.com/Path/")
    (by decide) (by decide) (by decide) (by decide)

/-- C4 counterexample: on `'"\x7bx\x7d"'` the substring between the first brace
and the last brace exists (`"\x7bx\x7d"`) and fails to parse, while the whole
response is valid JSON (the string value); the source nevertheless returns the
placeholder — the whole-text fallback is never attempted once the substring
exists. -/
theorem parse_response_skips_whole_text_fallback_counterexample :
    braceSubstring (("\"\x7bx\x7d\"").data) = some (("\x7bx\x7d").data) ∧
    pyJsonLoads (("\x7bx\x7d").data) = none ∧
    pyJsonLoads (("\"\x7bx\x7d\"").data) = some (Json.str ("\x7bx\x7d")) ∧
    parse_response (("\"\x7bx\x7d\"").data) = defaultInsight ∧
    defaultInsight ≠ Json.str ("\x7bx\x7d") :=
  ⟨rfl, rfl, rfl, rfl, fun h => Json.noConfusion h⟩

/-- Case analysis of `_parse_response` against the brace-substring extraction
(shared by the parsing-policy claims). -/
theorem parse_response_eq_of_braceSubstring (t : List Char) :
    (∀ s, braceSubstring t = some s →
      parse_response t = (pyJsonLoads s).getD defaultInsight) ∧
    (braceSubstring t = none →
      parse_response t = (pyJsonLoads t).getD defaultInsight) := by
  constructor
  · intro s hsub
    unfold braceSubstring at hsub
    unfold parse_response
    by_cases hc : pyFind t '\x7b' ≠ -1 ∧ pyRfind t '\x7d' + 1 > pyFind t '\x7b'
    · rw [if_pos hc] at hsub
      rw [Option.some.injEq] at hsub
      rw [if_pos hc, hsub]
      cases pyJsonLoads s <;> rfl
    · rw [if_neg hc] at hsub
      exact absurd hsub (by simp)
  · intro hnone
    unfold braceSubstring at hnone
    unfold parse_response
    by_cases hc : pyFind t '\x7b' ≠ -1 ∧ pyRfind t '\x7d' + 1 > pyFind t '\x7b'
    · rw [if_pos hc] at hnone
      exact absurd hnone (by simp)
    · rw [if_neg hc]
      cases pyJsonLoads t <;> rfl

/-- C4 amended: when the brace-delimited substring exists but fails to parse,
`_parse_response` substitutes the placeholder directly; the whole-text parse is
attempted only when no such substring exists. -/
theorem parse_response_slice_failure_policy (t s : List Char) :
    (braceSubstring t = some s → pyJsonLoads s = none →
      parse_response t = defaultInsight) ∧
    (braceSubstring t = none →
      parse_response t = (pyJsonLoads t).getD defaultInsight) := by
  constructor
  · intro hsub hfail
    rw [(parse_response_eq_of_braceSubstring t).1 s hsub, hfail]
    rfl
  · exact (parse_response_eq_of_braceSubstring t).2

/-- Witness for C4 amended: the substring branch at `"a\x7bx\x7db"` and the
no-substring branch at `"hello"`. -/
theorem parse_response_slice_failure_policy_witness :
    parse_response (("a\x7bx\x7db").data) = defaultInsight ∧
    parse_response (("hello").data) =
      (pyJsonLoads (("hello").data)).getD defaultInsight :=
  ⟨(parse_response_slice_failure_policy (("a\x7bx\x7db").data) (("\x7bx\x7d").data)).1
      rfl rfl,
   (parse_response_slice_failure_policy (("hello").data) []).2 rfl⟩

/-- C5: when nothing in the response parses as JSON — the brace-delimited
substring (when present) fails, and the whole text fails — `_parse_response`
returns exactly the fixed placeholder (and, being a total function, never
raises). -/
theorem parse_response_placeholder_on_unparseable (t : List Char)
    (hsub : ∀ s, braceSubstring t = some s → pyJsonLoads s = none)
    (hwhole : pyJsonLoads t = none) :
    parse_response t = defaultInsight ∧
    defaultInsight =
      Json.obj
        [("company_summary", Json.str "Unable to generate summary"),
         ("industry_category", Json.str "Unknown"),
         ("target_audience", Json.str "Unknown"),
         ("key_problems_solved", Json.arr []),
         ("potential_competitors", Json.arr []),
         ("news_summary", Json.str "Unable to summarize news")] := by
  refine ⟨?_, rfl⟩
  cases hb : braceSubstring t with
  | some s =>
    rw [(parse_response_eq_of_braceSubstring t).1 s hb, hsub s hb]
    rfl
  | none =>
    rw [(parse_response_eq_of_braceSubstring t).2 hb, hwhole]
    rfl

/-- Witness for C5 at `"a\x7bx\x7db"` (substring present and unparseable, whole
text unparseable). -/
theorem parse_response_placeholder_on_unparseable_witness :
    parse_response (("a\x7bx\x7db").data) = defaultInsight :=
  (parse_response_placeholder_on_unparseable (("a\x7bx\x7db").data)
    (fun s hs => by
      rw [show braceSubstring (("a\x7bx\x7db").data) = some (("\x7bx\x7d").data) from rfl,
        Option.some.injEq] at hs
      rw [← hs]
      rfl)
    rfl).1

/-- A sample organic (general web) search result. -/
def sampleOrganicItem : SerpItem :=
  { title := some "Example raises funding"
    snippet := some "Example announced a new round."
    link := some "https://news.site/example"
    date := none
    source := .absent
    displayed_link := some "news.site" }

/-- C6 counterexample: the source branches on the presence of the
`"news_results"` key, not on its count. A response carrying `"news_results": []`
together with nonempty organic results yields an empty output — no organic
fallback — although it contains zero news-vertical results and at least one
organic result. So does a response with `limit = 0` even when the key is
absent. -/
theorem fetch_news_no_fallback_on_empty_news_list_counterexample :
    fetch_company_news ⟨some [], some [sampleOrganicItem]⟩ 5 = [] ∧
    fetch_company_news ⟨none, some [sampleOrganicItem]⟩ 0 = [] := by
  exact ⟨rfl, rfl⟩

/-- C6 amended: when the response has no `"news_results"` key at all, a present
`"organic_results"` list is mapped into the article shape (page link as source,
displayed link as source name) and truncated to the limit; the output is
nonempty provided the organic list is nonempty and the limit positive. -/
theorem fetch_news_organic_fallback (r : SerpResults) (limit : Nat)
    (l : List SerpItem) (hnews : r.news_results = none)
    (horg : r.organic_results = some l) (hne : l ≠ []) (hlim : 0 < limit) :
    fetch_company_news r limit = (l.take limit).map newsArticleOfOrganicItem ∧
    fetch_company_news r limit ≠ [] := by
  have heq : fetch_company_news r limit = (l.take limit).map newsArticleOfOrganicItem := by
    unfold fetch_company_news
    rw [hnews, horg]
  refine ⟨heq, ?_⟩
  rw [heq]
  intro hmap
  rw [List.map_eq_nil] at hmap
  rcases l with _ | ⟨a, l'⟩
  · exact hne rfl
  · rw [List.take_cons hlim] at hmap
    exact List.noConfusion hmap

/-- Witness for C6 amended at a one-item organic list and limit 5. -/
theorem fetch_news_organic_fallback_witness :
    fetch_company_news ⟨none, some [sampleOrganicItem]⟩ 5 =
      ([sampleOrganicItem].take 5).map newsArticleOfOrganicItem ∧
    fetch_company_news ⟨none, some [sampleOrganicItem]⟩ 5 ≠ [] :=
  fetch_news_organic_fallback ⟨none, some [sampleOrganicItem]⟩ 5 [sampleOrganicItem]
    rfl rfl (by simp) (by omega)

/-- On every run that does not end in `"success"`, the store is untouched (the
only mutating step is the final save). -/
theorem profile_company_table_unchanged_or_success (env : AgentEnv) (url : String) :
    (profile_company env url).status = "success" ∨
      (profile_company env url).table = env.table := by
  unfold profile_company
  split
  · exact Or.inr rfl
  · split
    · exact Or.inr rfl
    · split
      · exact Or.inr rfl
      · dsimp only
        split
        · exact Or.inr rfl
        · exact Or.inl rfl

/-- C7: when the existence check misses and the page fetch raises,
`profile_company` returns the uniform error value — status `"error"`, the error
text as message, no data — and the store is untouched; moreover on every run
that ends with status `"error"` the store is exactly as it was. -/
theorem profile_company_error_on_fetch_failure
    (env : AgentEnv) (url : String) (e : String) :
    (check_company_exists env.dbOk env.table url = false → env.scrape = .error e →
      profile_company env url =
        ⟨"error", e, none, env.table, ["check_company_exists", "scrape_website"]⟩) ∧
    ((profile_company env url).status = "error" →
      (profile_company env url).table = env.table) := by
  constructor
  · intro hex hscrape
    unfold profile_company
    rw [hex, if_neg (by simp), hscrape]
  · intro herr
    rcases profile_company_table_unchanged_or_success env url with h | h
    · rw [herr] at h
      exact absurd h (by decide)
    · exact h

/-- An environment whose scraper raises. -/
def failingFetchEnv : AgentEnv :=
  { dbOk := true
    table := []
    scrape := .error "Error scraping https://newco.example: connection timed out"
    news := []
    analysis := .ok
      { company_summary := ""
        industry_category := ""
        target_audience := ""
        key_problems_solved := []
        potential_competitors := []
        news_summary := "" } }

/-- Witness for C7: a run against an empty store whose fetch raises. -/
theorem profile_company_error_on_fetch_failure_witness :
    profile_company failingFetchEnv ("https://newco.example") =
      ⟨"error", "Error scraping https://newco.example: connection timed out", none,
        [], ["check_company_exists", "scrape_website"]⟩ ∧
    (profile_company failingFetchEnv ("https://newco.example")).table =
      failingFetchEnv.table :=
  ⟨(profile_company_error_on_fetch_failure failingFetchEnv ("https://newco.example")
      "Error scraping https://newco.example: connection timed out").1 (by decide) rfl,
   (profile_company_error_on_fetch_failure failingFetchEnv ("https://newco.example")
      "Error scraping https://newco.example: connection timed out").2
     (by
       rw [(profile_company_error_on_fetch_failure failingFetchEnv
        ("https://newco.example")
        "Error scraping https://newco.example: connection timed out").1 (by decide) rfl])⟩

/-- C8: when the normalized key is already present, `profile_company` reports
`"exists"` with the stored profile, leaves the store unchanged, and invokes
neither the scraper, the news fetcher, the analyzer, nor the store writer. -/
theorem profile_company_short_circuits_on_existing
    (env : AgentEnv) (url : String)
    (hex : check_company_exists env.dbOk env.table url = true) :
    profile_company env url =
      ⟨"exists", "Company profile already exists in database",
        get_company_profile env.dbOk env.table url, env.table,
        ["check_company_exists", "get_company_profile"]⟩ ∧
    "scrape_website" ∉ (profile_company env url).calls ∧
    "fetch_company_news" ∉ (profile_company env url).calls ∧
    "analyze_company" ∉ (profile_company env url).calls ∧
    "save_company_profile" ∉ (profile_company env url).calls := by
  have heq : profile_company env url =
      ⟨"exists", "Company profile already exists in database",
        get_company_profile env.dbOk env.table url, env.table,
        ["check_company_exists", "get_company_profile"]⟩ := by
    unfold profile_company
    rw [hex, if_pos rfl]
  refine ⟨heq, ?_, ?_, ?_, ?_⟩ <;> rw [heq] <;> simp

/-- An environment whose store already holds the sample record. -/
def existingCompanyEnv : AgentEnv :=
  { failingFetchEnv with table := [sampleRecord] }

/-- Witness for C8 at the stored URL `"https://Example.com"` (which normalizes
to the stored key). -/
theorem profile_company_short_circuits_on_existing_witness :
    profile_company existingCompanyEnv ("https://Example.com") =
      ⟨"exists", "Company profile already exists in database",
        get_company_profile existingCompanyEnv.dbOk existingCompanyEnv.table
          ("https://Example.com"),
        existingCompanyEnv.table,
        ["check_company_exists", "get_company_profile"]⟩ ∧
    "scrape_website" ∉ (profile_company existingCompanyEnv ("https://Example.com")).calls ∧
    "fetch_company_news" ∉ (profile_company existingCompanyEnv ("https://Example.com")).calls ∧
    "analyze_company" ∉ (profile_company existingCompanyEnv ("https://Example.com")).calls ∧
    "save_company_profile" ∉ (profile_company existingCompanyEnv ("https://Example.com")).calls :=
  profile_company_short_circuits_on_existing existingCompanyEnv ("https://Example.com")
    (by decide)

/-- C9: for every fetched document, the scraper output has exactly one trimmed
entry per `h1` element, keeps only links whose host differs from the page's
own, deduplicated and truncated to at most 20, and truncates the content to at
most 5000 characters. -/
theorem scrape_website_extraction (soup : Soup) (url : String) :
    (scrape_website soup url).h1_tags = soup.h1s.map pyStrip ∧
    (scrape_website soup url).h1_tags.length = soup.h1s.length ∧
    (∀ link ∈ (scrape_website soup url).outbound_links,
      (pyUrlparse link.data).netloc ≠ (pyUrlparse url.data).netloc) ∧
    (scrape_website soup url).outbound_links.Nodup ∧
    (scrape_website soup url).outbound_links.length ≤ 20 ∧
    (scrape_website soup url).content.length ≤ 5000 := by
  refine ⟨rfl, by simp [scrape_website], ?_, ?_, ?_, ?_⟩
  · intro link hlink
    have hmem : link ∈ extract_outbound_links soup url :=
      List.mem_of_mem_take hlink
    unfold extract_outbound_links at hmem
    have hf := List.mem_dedup.mp hmem
    have := (List.mem_filter.mp hf).2
    exact of_decide_eq_true this
  · exact (List.nodup_dedup _).sublist (List.take_sublist _ _)
  · exact (List.length_take _ _).le.trans (by omega)
  · show ((extract_content soup.bodyText.data).take 5000).length ≤ 5000
    exact (List.length_take _ _).le.trans (by omega)

end Profiler
